import Mathlib

/-!
Verification of the podboat download-manager specification.

The repository ships the entry point (`src/podboat.cpp`); the queue store,
download scheduler, transfer worker and queue controller are described by the
specification, so those components are modelled here from the spec's words.
-/

namespace Podboat

/-- Modelled from the spec: the status of a queue entry
(`{Queued, Downloading, Paused, Finished, Failed, AlreadyDownloaded, Deleted}`). -/
inductive DlStatus where
  | Queued
  | Downloading
  | Paused
  | Finished
  | Failed
  | AlreadyDownloaded
  | Deleted
  deriving DecidableEq, Repr

/-- Modelled from the spec: one download unit (`QueueEntry`), with source URL,
destination path, status, progress counters and an optional failure reason. -/
structure QueueEntry where
  url : String
  local_path : String
  status : DlStatus
  bytes_done : Nat
  bytes_total : Option Nat
  last_error : Option String
  deriving DecidableEq, Repr

/-- `true` exactly on the `Deleted` tombstone status. -/
def isDeleted (e : QueueEntry) : Bool :=
  match e.status with
  | .Deleted => true
  | _ => false

/-! ## Decimal rendering and parsing of the byte counters -/

/-- The decimal digit character for `d < 10`. -/
def digitChar (d : Nat) : Char :=
  match d with
  | 0 => '0' | 1 => '1' | 2 => '2' | 3 => '3' | 4 => '4'
  | 5 => '5' | 6 => '6' | 7 => '7' | 8 => '8' | _ => '9'

/-- Little-endian list of decimal digit characters of `n`. -/
def natDigitsLE (n : Nat) : List Char :=
  if h : n < 10 then [digitChar n]
  else digitChar (n % 10) :: natDigitsLE (n / 10)
  termination_by n
  decreasing_by exact Nat.div_lt_self (by omega) (by omega)

/-- Decimal rendering of a byte counter for the persisted queue file. -/
def natToStr (n : Nat) : String :=
  String.mk (natDigitsLE n).reverse

/-- Value of a decimal digit character, `none` on a non-digit. -/
def digitVal (c : Char) : Option Nat :=
  if 48 ≤ c.toNat ∧ c.toNat ≤ 57 then some (c.toNat - 48) else none

/-- Left-to-right accumulator pass over decimal digit characters. -/
def strToNatCore : List Char → Nat → Option Nat
  | [], acc => some acc
  | c :: cs, acc =>
      match digitVal c with
      | none => none
      | some d => strToNatCore cs (acc * 10 + d)

/-- Parses a decimal byte counter from a field of the queue file;
`none` when the field is empty or holds a non-digit. -/
def strToNat (s : String) : Option Nat :=
  if s.data.isEmpty then none else strToNatCore s.data 0

theorem strToNatCore_append (l₁ l₂ : List Char) (acc : Nat) :
    strToNatCore (l₁ ++ l₂) acc =
      match strToNatCore l₁ acc with
      | none => none
      | some v => strToNatCore l₂ v := by
  induction l₁ generalizing acc with
  | nil => rfl
  | cons c cs ih =>
      simp only [List.cons_append, strToNatCore]
      cases digitVal c with
      | none => rfl
      | some d => exact ih _

theorem digitVal_digitChar : ∀ d : Fin 10, digitVal (digitChar d.val) = some d.val := by
  decide

theorem strToNatCore_digits (n : Nat) :
    ∀ acc, strToNatCore (natDigitsLE n).reverse acc =
      some (acc * 10 ^ (natDigitsLE n).length + n) := by
  induction n using natDigitsLE.induct with
  | case1 n h =>
      intro acc
      rw [natDigitsLE, dif_pos h]
      have hd : digitVal (digitChar n) = some n := digitVal_digitChar ⟨n, h⟩
      simp [strToNatCore, hd]
  | case2 n h ih =>
      intro acc
      rw [natDigitsLE, dif_neg h]
      have hlt : n % 10 < 10 := Nat.mod_lt _ (by omega)
      have hd : digitVal (digitChar (n % 10)) = some (n % 10) :=
        digitVal_digitChar ⟨n % 10, hlt⟩
      simp only [List.reverse_cons, strToNatCore_append, ih acc, strToNatCore, hd,
        List.length_cons]
      have : (acc * 10 ^ (natDigitsLE (n / 10)).length + n / 10) * 10 + n % 10 =
          acc * 10 ^ ((natDigitsLE (n / 10)).length + 1) + n := by
        have hmod := Nat.div_add_mod n 10
        ring_nf
        omega
      simp [this]

theorem natDigitsLE_ne_nil (n : Nat) : natDigitsLE n ≠ [] := by
  rw [natDigitsLE]
  split <;> simp

theorem strToNat_natToStr (n : Nat) : strToNat (natToStr n) = some n := by
  have hne : (natDigitsLE n).reverse ≠ [] := by
    simpa using natDigitsLE_ne_nil n
  have hE : (natDigitsLE n).reverse.isEmpty = false := by
    simp [List.isEmpty_iff, hne]
  have hdata : (natToStr n).data = (natDigitsLE n).reverse := rfl
  rw [strToNat, hdata, hE]
  simpa using strToNatCore_digits n 0

/-! ## Queue Store: the persisted line format -/

/-- Modelled from the spec: the on-disk status tag of one entry.  `Deleted`
entries are dropped from the persisted file before serialization, so their tag
is never written. -/
def statusTag : DlStatus → String
  | .Queued => "queued"
  | .Downloading => "downloading"
  | .Paused => "paused"
  | .Finished => "finished"
  | .Failed => "failed"
  | .AlreadyDownloaded => "already_downloaded"
  | .Deleted => "deleted"

/-- Modelled from the spec: parsing a status tag read back from the queue
file; an in-flight `downloading` tag reloads as `Queued`. -/
def parseStatus : String → Option DlStatus
  | "queued" => some .Queued
  | "downloading" => some .Queued
  | "paused" => some .Paused
  | "finished" => some .Finished
  | "failed" => some .Failed
  | "already_downloaded" => some .AlreadyDownloaded
  | _ => none

/-- Modelled from the spec: the bytes-total field, with a sentinel for an
unknown expected size. -/
def totalField : Option Nat → String
  | none => "unknown"
  | some n => natToStr n

/-- Parses the bytes-total field back; `some none` is the unknown sentinel. -/
def parseTotal (s : String) : Option (Option Nat) :=
  if s = "unknown" then some none else (strToNat s).map some

/-- Modelled from the spec: one entry per line with fields URL, local path,
status tag, bytes-done, bytes-total. -/
def serializeEntry (e : QueueEntry) : List String :=
  [e.url, e.local_path, statusTag e.status, natToStr e.bytes_done,
    totalField e.bytes_total]

/-- Modelled from the spec: parsing one line of the queue file.  Missing
trailing fields (older format versions) are tolerated with defaults; a line
whose present fields do not parse yields `none` and is skipped by the loader. -/
def parseLine : List String → Option QueueEntry
  | url :: path :: rest =>
      if url = "" then none else
      match rest with
      | [] => some ⟨url, path, .Queued, 0, none, none⟩
      | [st] => (parseStatus st).map fun s => ⟨url, path, s, 0, none, none⟩
      | [st, d] =>
          match parseStatus st, strToNat d with
          | some s, some dv => some ⟨url, path, s, dv, none, none⟩
          | _, _ => none
      | [st, d, t] =>
          match parseStatus st, strToNat d, parseTotal t with
          | some s, some dv, some tv => some ⟨url, path, s, dv, tv, none⟩
          | _, _, _ => none
      | _ => none
  | _ => none

/-- Modelled from the spec: the serialized queue file contents.  `Deleted`
tombstones are dropped from the persisted file on rewrite. -/
def saveLines (q : List QueueEntry) : List (List String) :=
  (q.filter fun e => ! isDeleted e).map serializeEntry

/-- Modelled from the spec: reading the queue back from parsed file lines;
unparseable lines are skipped. -/
def loadLines (file : List (List String)) : List QueueEntry :=
  file.filterMap parseLine

/-- How a persisted status reads back: `Downloading` reloads as `Queued`. -/
def reloadStatus : DlStatus → DlStatus
  | .Downloading => .Queued
  | s => s

/-- An entry as the spec's data model constrains it: non-empty URL and not a
`Deleted` tombstone (tombstones are dropped at the next rewrite). -/
def validEntry (e : QueueEntry) : Prop :=
  e.url ≠ "" ∧ e.status ≠ .Deleted

theorem natToStr_ne_unknown (n : Nat) : natToStr n ≠ "unknown" := by
  intro h
  have h1 : strToNat "unknown" = some n := h ▸ strToNat_natToStr n
  have h2 : strToNat "unknown" = none := rfl
  rw [h2] at h1
  exact Option.noConfusion h1

theorem parseStatus_statusTag (s : DlStatus) (hs : s ≠ .Deleted) :
    parseStatus (statusTag s) = some (reloadStatus s) := by
  cases s <;> first | rfl | exact absurd rfl hs

theorem parseLine_serializeEntry (e : QueueEntry) (he : validEntry e) :
    parseLine (serializeEntry e) =
      some { e with status := reloadStatus e.status, last_error := none } := by
  obtain ⟨hurl, hst⟩ := he
  rw [serializeEntry, parseLine]
  rw [if_neg hurl]
  rw [parseStatus_statusTag e.status hst, strToNat_natToStr]
  cases ht : e.bytes_total with
  | none => rfl
  | some n =>
      have : parseTotal (totalField (some n)) = some (some n) := by
        rw [totalField, parseTotal, if_neg (natToStr_ne_unknown n),
          strToNat_natToStr, Option.map]
      rw [this]

/-! ## Queue mutation operations (Controller-level add/delete/move) -/

/-- A freshly added entry: `Queued`, nothing downloaded yet. -/
def newEntry (url path : String) : QueueEntry :=
  ⟨url, path, .Queued, 0, none, none⟩

/-- Removes the element at index `i` (identity when out of range). -/
def removeAt (l : List α) (i : Nat) : List α :=
  l.take i ++ l.drop (i + 1)

/-- Inserts `a` at index `j` (clamped to the end when out of range). -/
def insertAt (l : List α) (j : Nat) (a : α) : List α :=
  l.take j ++ a :: l.drop j

/-- Modelled from the spec: a queue mutation command
(`add`, `delete`, `move`). -/
inductive QueueOp where
  | add (url path : String)
  | del (i : Nat)
  | move (i j : Nat)

/-- Modelled from the spec: the effect of one mutation on the in-memory
sequence: `add` appends a `Queued` entry, `delete` removes by index,
`move` reorders. -/
def applyOp (q : List QueueEntry) : QueueOp → List QueueEntry
  | .add url path => q ++ [newEntry url path]
  | .del i => removeAt q i
  | .move i j =>
      match q[i]? with
      | none => q
      | some e => insertAt (removeAt q i) j e

/-- A whole sequence of mutations, applied in order. -/
def applyOps (q : List QueueEntry) (ops : List QueueOp) : List QueueEntry :=
  ops.foldl applyOp q

/-- A well-formed command: `add` carries a non-empty URL. -/
def validOp : QueueOp → Prop
  | .add url _ => url ≠ ""
  | _ => True

instance : DecidablePred validEntry := fun e =>
  inferInstanceAs (Decidable (e.url ≠ "" ∧ e.status ≠ DlStatus.Deleted))

instance : DecidablePred validOp := fun op =>
  match op with
  | .add url _ => inferInstanceAs (Decidable (url ≠ ""))
  | .del _ => inferInstanceAs (Decidable True)
  | .move _ _ => inferInstanceAs (Decidable True)

theorem mem_removeAt {l : List α} {i : Nat} {x : α} (h : x ∈ removeAt l i) :
    x ∈ l := by
  rcases List.mem_append.mp h with h' | h'
  · exact List.mem_of_mem_take h'
  · exact List.mem_of_mem_drop h'

theorem mem_insertAt {l : List α} {j : Nat} {a x : α} (h : x ∈ insertAt l j a) :
    x = a ∨ x ∈ l := by
  rcases List.mem_append.mp h with h' | h'
  · exact Or.inr (List.mem_of_mem_take h')
  · rcases List.mem_cons.mp h' with h'' | h''
    · exact Or.inl h''
    · exact Or.inr (List.mem_of_mem_drop h'')

theorem validEntry_applyOp {q : List QueueEntry} {op : QueueOp}
    (hq : ∀ e ∈ q, validEntry e) (hop : validOp op) :
    ∀ e ∈ applyOp q op, validEntry e := by
  intro e he
  cases op with
  | add url path =>
      rcases List.mem_append.mp he with h | h
      · exact hq e h
      · have : e = newEntry url path := by simpa using h
        subst this
        exact ⟨hop, by simp [newEntry]⟩
  | del i => exact hq e (mem_removeAt he)
  | move i j =>
      simp only [applyOp] at he
      cases hx : q[i]? with
      | none => rw [hx] at he; exact hq e he
      | some a =>
          rw [hx] at he
          rcases mem_insertAt he with h | h
          · subst h
            exact hq e (List.getElem?_mem hx)
          · exact hq e (mem_removeAt h)

theorem validEntry_applyOps {q : List QueueEntry} {ops : List QueueOp}
    (hq : ∀ e ∈ q, validEntry e) (hops : ∀ op ∈ ops, validOp op) :
    ∀ e ∈ applyOps q ops, validEntry e := by
  induction ops generalizing q with
  | nil => exact hq
  | cons op ops ih =>
      exact ih (validEntry_applyOp hq (hops op (by simp)))
        (fun o ho => hops o (by simp [ho]))

theorem loadLines_saveLines {q : List QueueEntry} (hq : ∀ e ∈ q, validEntry e) :
    loadLines (saveLines q) =
      q.map fun e => { e with status := reloadStatus e.status, last_error := none } := by
  induction q with
  | nil => rfl
  | cons e q ih =>
      have he := hq e (by simp)
      have hdel : isDeleted e = false := by
        unfold isDeleted
        cases h : e.status <;> first | rfl | exact absurd h he.2
      simp only [saveLines, List.filter_cons, hdel, Bool.not_false, if_true,
        List.map_cons, loadLines, List.filterMap_cons,
        parseLine_serializeEntry e he]
      have := ih (fun x hx => hq x (by simp [hx]))
      simp only [saveLines, loadLines] at this
      simp [this]

/-- The five persisted fields of an entry, in order. -/
def fiveFields (e : QueueEntry) : String × String × DlStatus × Nat × Option Nat :=
  (e.url, e.local_path, e.status, e.bytes_done, e.bytes_total)

/-- C1: after any sequence of add/delete/move operations on a well-formed
queue, saving through the Queue Store and reloading yields a sequence with the
same order and the same entry fields (url, local_path, status, bytes_done,
bytes_total), except that a `Downloading` status reloads as `Queued`. -/
theorem c1_save_load_roundtrip (q0 : List QueueEntry) (ops : List QueueOp)
    (hq : ∀ e ∈ q0, validEntry e) (hops : ∀ op ∈ ops, validOp op) :
    (loadLines (saveLines (applyOps q0 ops))).map fiveFields =
      (applyOps q0 ops).map fun e =>
        (e.url, e.local_path, reloadStatus e.status, e.bytes_done, e.bytes_total) := by
  rw [loadLines_saveLines (validEntry_applyOps hq hops)]
  simp [fiveFields]

/-- Witness for C1 at a concrete queue and operation sequence. -/
theorem c1_save_load_roundtrip_witness :
    (loadLines (saveLines (applyOps
        [⟨"http://a", "a.mp3", .Downloading, 5, some 9, none⟩]
        [.add "http://b" "b.mp3", .move 0 1, .del 0, .add "http://c" "c.mp3"]))).map fiveFields =
      (applyOps [⟨"http://a", "a.mp3", .Downloading, 5, some 9, none⟩]
        [.add "http://b" "b.mp3", .move 0 1, .del 0, .add "http://c" "c.mp3"]).map
        (fun e => (e.url, e.local_path, reloadStatus e.status, e.bytes_done, e.bytes_total)) :=
  c1_save_load_roundtrip _ _ (by decide) (by decide)

/-! ## Queue Store: load error handling (C6) -/

/-- Modelled from the spec: the Queue Store's `IoError`-style failure surfaced
to the caller. -/
inductive StoreError where
  | ioFailure
  deriving DecidableEq, Repr

/-- Modelled from the spec: the observable condition of the on-disk queue
file when `load` runs: missing, existing but unreadable, existing but
malformed as a whole (undecodable), or readable as a list of field lines. -/
inductive QueueFileState where
  | missing
  | unreadable
  | malformed
  | readable (lines : List (List String))

/-- Modelled from the spec: `load()` — a missing file yields an empty queue;
an unreadable or malformed file fails with `IoError`; in a readable file the
unparseable lines are skipped (each one producing a warning, collected here)
and the remaining lines are parsed into entries. -/
def loadStore : QueueFileState → Except StoreError (List QueueEntry × List (List String))
  | .missing => .ok ([], [])
  | .unreadable => .error .ioFailure
  | .malformed => .error .ioFailure
  | .readable lines =>
      .ok (loadLines lines, lines.filter fun l => (parseLine l).isNone)

theorem filterMap_filter_isSome (f : α → Option β) (l : List α) :
    (l.filter fun x => (f x).isSome).filterMap f = l.filterMap f := by
  induction l with
  | nil => rfl
  | cons x xs ih =>
      by_cases hx : (f x).isSome
      · rw [List.filter_cons_of_pos (by simpa using hx)]
        simp [List.filterMap_cons, ih]
      · rw [List.filter_cons_of_neg (by simpa using hx)]
        rw [Option.not_isSome_iff_eq_none] at hx
        simp [List.filterMap_cons, hx, ih]

/-- C6: `load` returns an empty queue on a missing file, fails with `IoError`
on an unreadable or malformed file, and on a readable file skips exactly the
unparseable lines with warnings and returns the entries parsed from the
remaining lines instead of failing the whole load. -/
theorem c6_load_error_handling :
    loadStore .missing = .ok ([], []) ∧
    loadStore .unreadable = .error .ioFailure ∧
    loadStore .malformed = .error .ioFailure ∧
    ∀ lines : List (List String),
      loadStore (.readable lines) =
        .ok ((lines.filter fun l => (parseLine l).isSome).filterMap parseLine,
          lines.filter fun l => (parseLine l).isNone) := by
  refine ⟨rfl, rfl, rfl, fun lines => ?_⟩
  rw [loadStore, loadLines, filterMap_filter_isSome]

/-! ## Queue Store: atomic save under crashes (C5) -/

/-- Modelled from the spec: the on-disk state visible after a crash — the
main queue file and the temporary file `save` writes to before the rename. -/
structure DiskState where
  mainFile : Option (List (List String))
  tmpFile : Option (List (List String))
  deriving DecidableEq

/-- Modelled from the spec: every disk state reachable by crashing during
`save(entries)`: the new contents are first written line by line to a
temporary location (main file untouched), then a single atomic rename
installs the complete new contents as the main file. -/
def saveCrashStates (old : DiskState) (contents : List (List String)) : List DiskState :=
  ((List.range (contents.length + 1)).map fun k =>
    { mainFile := old.mainFile, tmpFile := some (contents.take k) }) ++
    [{ mainFile := some contents, tmpFile := none }]

/-- C5: at every crash point during `save` the main queue file holds either
the complete previous contents or the complete new contents — never a
truncated or half-written file — and the final state holds the new contents. -/
theorem c5_save_atomic (old : DiskState) (contents : List (List String))
    (d : DiskState) (hd : d ∈ saveCrashStates old contents) :
    (d.mainFile = old.mainFile ∨ d.mainFile = some contents) ∧
      (saveCrashStates old contents).getLast? =
        some { mainFile := some contents, tmpFile := none } := by
  constructor
  · rcases List.mem_append.mp hd with h | h
    · rcases List.mem_map.mp h with ⟨k, _, hk⟩
      exact Or.inl (by rw [← hk])
    · have : d = { mainFile := some contents, tmpFile := none } := by simpa using h
      exact Or.inr (by rw [this])
  · rw [saveCrashStates, List.getLast?_append]
    rfl

/-- Witness for C5 at a concrete old disk and new contents. -/
theorem c5_save_atomic_witness :
    (DiskState.mainFile { mainFile := some [["u", "p"]], tmpFile := none } =
        DiskState.mainFile { mainFile := some [["old"]], tmpFile := (none : Option (List (List String))) } ∨
      DiskState.mainFile { mainFile := some [["u", "p"]], tmpFile := none } =
        some [["u", "p"]]) ∧
      (saveCrashStates { mainFile := some [["old"]], tmpFile := none } [["u", "p"]]).getLast? =
        some { mainFile := some [["u", "p"]], tmpFile := none } :=
  c5_save_atomic { mainFile := some [["old"]], tmpFile := none } [["u", "p"]]
    { mainFile := some [["u", "p"]], tmpFile := none } (by decide)

/-! ## Download Scheduler (C2, C3, C8) -/

/-- Modelled from the spec: one queue entry as the Scheduler tracks it, with
its transient-retry count. -/
structure SchedEntry where
  entry : QueueEntry
  retries : Nat
  deriving DecidableEq, Repr

/-- Modelled from the spec: the configuration consumed by the Scheduler —
`max_concurrent_downloads` and `max_retries`. -/
structure SchedConfig where
  max_concurrent_downloads : Nat
  max_retries : Nat
  deriving DecidableEq, Repr

/-- Modelled from the spec: the Scheduler's state — the ordered queue plus
the global pause flag. -/
structure SchedState where
  entries : List SchedEntry
  paused : Bool
  deriving DecidableEq, Repr

/-- `true` exactly when the scheduler entry is currently `Downloading`. -/
def isActive (x : SchedEntry) : Bool :=
  match x.entry.status with
  | .Downloading => true
  | _ => false

/-- Number of entries whose status is `Downloading`. -/
def countDownloading (s : SchedState) : Nat :=
  s.entries.countP isActive

/-- Index of the first entry with status `Queued`, in queue order. -/
def firstQueuedIdx : List SchedEntry → Option Nat
  | [] => none
  | x :: xs =>
      if x.entry.status = .Queued then some 0
      else (firstQueuedIdx xs).map (· + 1)

/-- Replaces the status of a scheduler entry. -/
def setEntryStatus (x : SchedEntry) (st : DlStatus) : SchedEntry :=
  { x with entry := { x.entry with status := st } }

/-- Applies `f` to the element at index `i` (identity when out of range). -/
def updateAt (l : List α) (i : Nat) (f : α → α) : List α :=
  match l[i]? with
  | none => l
  | some a => l.take i ++ f a :: l.drop (i + 1)

/-- Modelled from the spec: what a Transfer Worker reports on completion —
success, a `Transient` failure, a `Permanent` failure, or cancellation. -/
inductive WorkerOutcome where
  | success
  | transientFail
  | permanentFail
  | cancelled
  deriving DecidableEq, Repr

/-- Modelled from the spec: one event of the Scheduler's control loop. -/
inductive SchedStep where
  | dispatch
  | report (i : Nat) (out : WorkerOutcome)
  | pauseAll
  | resumeAll
  deriving DecidableEq, Repr

/-- Global pause turns a `Downloading` entry into `Paused`. -/
def pauseEntry (x : SchedEntry) : SchedEntry :=
  match x.entry.status with
  | .Downloading => setEntryStatus x .Paused
  | _ => x

/-- Resuming turns a `Paused` entry back into `Queued`. -/
def resumeEntry (x : SchedEntry) : SchedEntry :=
  match x.entry.status with
  | .Paused => setEntryStatus x .Queued
  | _ => x

/-- The requeued copy of entry `a` after a retried `Transient` failure:
status back to `Queued`, retry count bumped. -/
def requeued (a : SchedEntry) : SchedEntry :=
  ⟨{ a.entry with status := .Queued }, a.retries + 1⟩

/-- Modelled from the spec: how the Scheduler handles the outcome reported by
the worker owning the `Downloading` entry at index `i` (holding value `a`) —
success marks it `Finished`; a `Permanent` failure or cancellation marks it
`Failed`; a `Transient` failure requeues it at the back of the retry order
with its retry count bumped while retries remain, and marks it terminally
`Failed` once `max_retries` is exhausted. -/
def reportStep (cfg : SchedConfig) (s : SchedState) (i : Nat) :
    WorkerOutcome → SchedEntry → SchedState
  | .success, a =>
      if a.entry.status = .Downloading then
        { s with entries := updateAt s.entries i fun x => setEntryStatus x .Finished }
      else s
  | .permanentFail, a =>
      if a.entry.status = .Downloading then
        { s with entries := updateAt s.entries i fun x => setEntryStatus x .Failed }
      else s
  | .cancelled, a =>
      if a.entry.status = .Downloading then
        { s with entries := updateAt s.entries i fun x => setEntryStatus x .Failed }
      else s
  | .transientFail, a =>
      if a.entry.status = .Downloading then
        if a.retries < cfg.max_retries then
          { s with entries := removeAt s.entries i ++ [requeued a] }
        else
          { s with entries := updateAt s.entries i fun x => setEntryStatus x .Failed }
      else s

/-- Modelled from the spec: one step of the Download Scheduler.
`dispatch`: when not paused and a slot is free (strictly fewer than
`max_concurrent_downloads` entries are `Downloading`), the first `Queued`
entry in queue order becomes `Downloading`.  `report i out`: the worker
owning the entry at `i` finished with outcome `out` (see `reportStep`).
`pauseAll`/`resumeAll` implement the global pause/resume. -/
def schedStep (cfg : SchedConfig) (s : SchedState) : SchedStep → SchedState
  | .dispatch =>
      if s.paused then s
      else if countDownloading s < cfg.max_concurrent_downloads then
        match firstQueuedIdx s.entries with
        | some i =>
            { s with entries := updateAt s.entries i fun x => setEntryStatus x .Downloading }
        | none => s
      else s
  | .report i out =>
      match s.entries[i]? with
      | some a => reportStep cfg s i out a
      | none => s
  | .pauseAll => { entries := s.entries.map pauseEntry, paused := true }
  | .resumeAll => { entries := s.entries.map resumeEntry, paused := false }

/-- A whole run of the Scheduler's control loop. -/
def schedRun (cfg : SchedConfig) (s : SchedState) (steps : List SchedStep) : SchedState :=
  steps.foldl (schedStep cfg) s

theorem list_decomp {l : List α} {i : Nat} {a : α} (h : l[i]? = some a) :
    l = l.take i ++ a :: l.drop (i + 1) := by
  obtain ⟨hlt, heq⟩ := List.getElem?_eq_some_iff.mp h
  conv_lhs => rw [← List.take_append_drop i l]
  rw [List.drop_eq_getElem_cons hlt, heq]

theorem countP_updateAt (p : α → Bool) {l : List α} {i : Nat} {a : α}
    (f : α → α) (h : l[i]? = some a) :
    (updateAt l i f).countP p + (if p a then 1 else 0) =
      l.countP p + (if p (f a) then 1 else 0) := by
  rw [updateAt, h]
  conv_rhs => rw [list_decomp h]
  simp only [List.countP_append, List.countP_cons]
  by_cases hpa : p a <;> by_cases hpf : p (f a) <;> simp [hpa, hpf] <;> omega

theorem countP_requeue (p : α → Bool) {l : List α} {i : Nat} {a : α}
    (b : α) (h : l[i]? = some a) :
    (removeAt l i ++ [b]).countP p + (if p a then 1 else 0) =
      l.countP p + (if p b then 1 else 0) := by
  rw [removeAt]
  conv_rhs => rw [list_decomp h]
  simp only [List.countP_append, List.countP_cons]
  by_cases hpa : p a <;> by_cases hpb : p b <;> simp [hpa, hpb] <;> omega

theorem firstQueuedIdx_spec :
    ∀ (l : List SchedEntry) (i : Nat), firstQueuedIdx l = some i →
      ∃ a, l[i]? = some a ∧ a.entry.status = .Queued ∧
        ∀ j a', j < i → l[j]? = some a' → a'.entry.status ≠ .Queued := by
  intro l
  induction l with
  | nil => intro i h; exact absurd h (by simp [firstQueuedIdx])
  | cons x xs ih =>
      intro i h
      rw [firstQueuedIdx] at h
      by_cases hx : x.entry.status = .Queued
      · rw [if_pos hx] at h
        obtain rfl : i = 0 := by simpa using h.symm
        exact ⟨x, by simp, hx, fun j a' hj _ => absurd hj (by omega)⟩
      · rw [if_neg hx] at h
        obtain ⟨i', hi', rfl⟩ := Option.map_eq_some'.mp h
        obtain ⟨a, ha, haq, hfst⟩ := ih i' hi'
        refine ⟨a, by simpa using ha, haq, ?_⟩
        intro j a' hj ha'
        cases j with
        | zero =>
            have hax : x = a' := by simpa using ha'
            rw [← hax]; exact hx
        | succ j' => exact hfst j' a' (by omega) (by simpa using ha')

theorem isActive_setEntryStatus (x : SchedEntry) (st : DlStatus) :
    isActive (setEntryStatus x st) = (match st with | .Downloading => true | _ => false) := by
  rfl

theorem schedStep_report {cfg : SchedConfig} {s : SchedState} {i : Nat}
    {out : WorkerOutcome} {a : SchedEntry} (ha : s.entries[i]? = some a) :
    schedStep cfg s (.report i out) = reportStep cfg s i out a := by
  rw [schedStep, ha]

theorem schedStep_report_oob {cfg : SchedConfig} {s : SchedState} {i : Nat}
    {out : WorkerOutcome} (ha : s.entries[i]? = none) :
    schedStep cfg s (.report i out) = s := by
  rw [schedStep, ha]

theorem reportStep_success {cfg : SchedConfig} {s : SchedState} {i : Nat}
    {a : SchedEntry} (hd : a.entry.status = .Downloading) :
    reportStep cfg s i .success a =
      { s with entries := updateAt s.entries i fun x => setEntryStatus x .Finished } := by
  rw [reportStep, if_pos hd]

theorem reportStep_permanent {cfg : SchedConfig} {s : SchedState} {i : Nat}
    {a : SchedEntry} (hd : a.entry.status = .Downloading) :
    reportStep cfg s i .permanentFail a =
      { s with entries := updateAt s.entries i fun x => setEntryStatus x .Failed } := by
  rw [reportStep, if_pos hd]

theorem reportStep_cancelled {cfg : SchedConfig} {s : SchedState} {i : Nat}
    {a : SchedEntry} (hd : a.entry.status = .Downloading) :
    reportStep cfg s i .cancelled a =
      { s with entries := updateAt s.entries i fun x => setEntryStatus x .Failed } := by
  rw [reportStep, if_pos hd]

theorem reportStep_transient_retry {cfg : SchedConfig} {s : SchedState} {i : Nat}
    {a : SchedEntry} (hd : a.entry.status = .Downloading)
    (hr : a.retries < cfg.max_retries) :
    reportStep cfg s i .transientFail a =
      { s with entries := removeAt s.entries i ++ [requeued a] } := by
  rw [reportStep, if_pos hd, if_pos hr]

theorem reportStep_transient_exhausted {cfg : SchedConfig} {s : SchedState} {i : Nat}
    {a : SchedEntry} (hd : a.entry.status = .Downloading)
    (hr : ¬ a.retries < cfg.max_retries) :
    reportStep cfg s i .transientFail a =
      { s with entries := updateAt s.entries i fun x => setEntryStatus x .Failed } := by
  rw [reportStep, if_pos hd, if_neg hr]

theorem reportStep_not_downloading {cfg : SchedConfig} {s : SchedState} {i : Nat}
    {out : WorkerOutcome} {a : SchedEntry} (hd : ¬ a.entry.status = .Downloading) :
    reportStep cfg s i out a = s := by
  cases out <;> rw [reportStep, if_neg hd]

theorem countDownloading_step_le (cfg : SchedConfig) (s : SchedState) (st : SchedStep)
    (h : countDownloading s ≤ cfg.max_concurrent_downloads) :
    countDownloading (schedStep cfg s st) ≤ cfg.max_concurrent_downloads := by
  cases st with
  | dispatch =>
      rw [schedStep]
      by_cases hp : s.paused
      · rw [if_pos hp]; exact h
      · rw [if_neg hp]
        by_cases hc : countDownloading s < cfg.max_concurrent_downloads
        · rw [if_pos hc]
          cases hf : firstQueuedIdx s.entries with
          | none => exact h
          | some i =>
              obtain ⟨a, ha, haq, -⟩ := firstQueuedIdx_spec s.entries i hf
              have hcount := countP_updateAt isActive
                (fun x => setEntryStatus x .Downloading) ha
              have hpa : isActive a = false := by
                rw [isActive, haq]
              have hpf : isActive (setEntryStatus a .Downloading) = true := rfl
              simp [hpa, hpf] at hcount
              simp only [countDownloading] at hc ⊢
              omega
        · rw [if_neg hc]; exact h
  | report i out =>
      cases ha : s.entries[i]? with
      | none => rw [schedStep_report_oob ha]; exact h
      | some a =>
          rw [schedStep_report ha]
          by_cases hd : a.entry.status = .Downloading
          · have hpa : isActive a = true := by rw [isActive, hd]
            cases out with
            | success =>
                rw [reportStep_success hd]
                have hcount := countP_updateAt isActive
                  (fun x => setEntryStatus x .Finished) ha
                simp [hpa, isActive_setEntryStatus] at hcount
                simp only [countDownloading] at h ⊢
                omega
            | permanentFail =>
                rw [reportStep_permanent hd]
                have hcount := countP_updateAt isActive
                  (fun x => setEntryStatus x .Failed) ha
                simp [hpa, isActive_setEntryStatus] at hcount
                simp only [countDownloading] at h ⊢
                omega
            | cancelled =>
                rw [reportStep_cancelled hd]
                have hcount := countP_updateAt isActive
                  (fun x => setEntryStatus x .Failed) ha
                simp [hpa, isActive_setEntryStatus] at hcount
                simp only [countDownloading] at h ⊢
                omega
            | transientFail =>
                by_cases hr : a.retries < cfg.max_retries
                · rw [reportStep_transient_retry hd hr]
                  have hcount := countP_requeue isActive (requeued a) ha
                  have hpb : isActive (requeued a) = false := rfl
                  simp only [countDownloading] at h ⊢
                  simp [hpa, hpb] at hcount ⊢
                  omega
                · rw [reportStep_transient_exhausted hd hr]
                  have hcount := countP_updateAt isActive
                    (fun x => setEntryStatus x .Failed) ha
                  simp [hpa, isActive_setEntryStatus] at hcount
                  simp only [countDownloading] at h ⊢
                  omega
          · rw [reportStep_not_downloading hd]; exact h
  | pauseAll =>
      have : countDownloading (schedStep cfg s .pauseAll) = 0 := by
        simp only [schedStep, countDownloading]
        rw [List.countP_eq_zero]
        intro y hy
        obtain ⟨x, -, rfl⟩ := List.mem_map.mp hy
        rw [pauseEntry]
        cases hx : x.entry.status <;> simp [isActive, setEntryStatus, hx]
      omega
  | resumeAll =>
      have : countDownloading (schedStep cfg s .resumeAll) = countDownloading s := by
        simp only [schedStep, countDownloading, List.countP_map]
        refine List.countP_congr fun x _ => ?_
        rw [Function.comp_apply, resumeEntry]
        cases hx : x.entry.status <;> simp [isActive, setEntryStatus, hx]
      omega

theorem countDownloading_run_le (cfg : SchedConfig) (steps : List SchedStep) :
    ∀ s : SchedState, countDownloading s ≤ cfg.max_concurrent_downloads →
      countDownloading (schedRun cfg s steps) ≤ cfg.max_concurrent_downloads := by
  induction steps with
  | nil => intro s h; exact h
  | cons st steps ih =>
      intro s h
      exact ih _ (countDownloading_step_le cfg s st h)

/-- C2: for every configuration with `max_concurrent_downloads ≥ 1` and every
run of the scheduler from a state with no active downloads, the number of
`Downloading` entries never exceeds `max_concurrent_downloads`. -/
theorem c2_concurrency_bound (cfg : SchedConfig) (s : SchedState)
    (steps : List SchedStep) (hcfg : 1 ≤ cfg.max_concurrent_downloads)
    (h0 : countDownloading s = 0) :
    countDownloading (schedRun cfg s steps) ≤ cfg.max_concurrent_downloads :=
  countDownloading_run_le cfg steps s (by omega)

/-- Witness for C2 at a concrete configuration, state and step sequence. -/
theorem c2_concurrency_bound_witness :
    countDownloading (schedRun ⟨1, 2⟩
        ⟨[⟨newEntry "http://a" "a", 0⟩, ⟨newEntry "http://b" "b", 0⟩], false⟩
        [.dispatch, .dispatch, .report 0 .success, .dispatch]) ≤ 1 :=
  c2_concurrency_bound ⟨1, 2⟩
    ⟨[⟨newEntry "http://a" "a", 0⟩, ⟨newEntry "http://b" "b", 0⟩], false⟩
    [.dispatch, .dispatch, .report 0 .success, .dispatch]
    (by decide) (by decide)

theorem mem_updateAt_of_ne (f : α → α) {l : List α} {i : Nat} {a x : α}
    (h : l[i]? = some a) (hx : x ∈ l) (hne : x ≠ a) : x ∈ updateAt l i f := by
  rw [updateAt, h]
  have hxd := hx
  rw [list_decomp h] at hxd
  rcases List.mem_append.mp hxd with h1 | h1
  · exact List.mem_append.mpr (Or.inl h1)
  · rcases List.mem_cons.mp h1 with h2 | h2
    · exact absurd h2 hne
    · exact List.mem_append.mpr (Or.inr (List.mem_cons.mpr (Or.inr h2)))

theorem mem_removeAt_of_ne {l : List α} {i : Nat} {a x : α}
    (h : l[i]? = some a) (hx : x ∈ l) (hne : x ≠ a) : x ∈ removeAt l i := by
  rw [removeAt]
  have hxd := hx
  rw [list_decomp h] at hxd
  rcases List.mem_append.mp hxd with h1 | h1
  · exact List.mem_append.mpr (Or.inl h1)
  · rcases List.mem_cons.mp h1 with h2 | h2
    · exact absurd h2 hne
    · exact List.mem_append.mpr (Or.inr h2)

theorem mem_updateAt {l : List α} {i : Nat} {f : α → α} {y : α}
    (hy : y ∈ updateAt l i f) : y ∈ l ∨ ∃ a, l[i]? = some a ∧ y = f a := by
  rw [updateAt] at hy
  cases h : l[i]? with
  | none => rw [h] at hy; exact Or.inl hy
  | some a =>
      rw [h] at hy
      rcases List.mem_append.mp hy with h1 | h1
      · exact Or.inl (List.mem_of_mem_take h1)
      · rcases List.mem_cons.mp h1 with h2 | h2
        · exact Or.inr ⟨a, rfl, h2⟩
        · exact Or.inl (List.mem_of_mem_drop h2)

theorem updateAt_getElem?_self (f : α → α) {l : List α} {i : Nat} {a : α}
    (h : l[i]? = some a) : (updateAt l i f)[i]? = some (f a) := by
  rw [updateAt, h]
  have hlt : i < l.length := (List.getElem?_eq_some_iff.mp h).1
  have hlen : (l.take i).length = i := by
    simp [List.length_take, Nat.min_eq_left (Nat.le_of_lt hlt)]
  rw [List.getElem?_append_right (by omega)]
  simp [hlen]

/-- Every entry of a post-step state arises from an entry of the pre-step
state by one of the scheduler's transitions. -/
theorem mem_schedStep {cfg : SchedConfig} {s : SchedState} {st : SchedStep} {y : SchedEntry}
    (hy : y ∈ (schedStep cfg s st).entries) :
    ∃ x ∈ s.entries, y = x ∨ y = setEntryStatus x .Downloading ∨
      y = setEntryStatus x .Finished ∨ y = setEntryStatus x .Failed ∨
      (y = requeued x ∧ x.retries < cfg.max_retries) ∨
      y = pauseEntry x ∨ y = resumeEntry x := by
  cases st with
  | dispatch =>
      rw [schedStep] at hy
      by_cases hp : s.paused
      · rw [if_pos hp] at hy
        exact ⟨y, hy, Or.inl rfl⟩
      · rw [if_neg hp] at hy
        by_cases hc : countDownloading s < cfg.max_concurrent_downloads
        · rw [if_pos hc] at hy
          cases hf : firstQueuedIdx s.entries with
          | none => rw [hf] at hy; exact ⟨y, hy, Or.inl rfl⟩
          | some i =>
              rw [hf] at hy
              rcases mem_updateAt hy with h1 | ⟨a, ha, rfl⟩
              · exact ⟨y, h1, Or.inl rfl⟩
              · exact ⟨a, List.getElem?_mem ha, Or.inr (Or.inl rfl)⟩
        · rw [if_neg hc] at hy
          exact ⟨y, hy, Or.inl rfl⟩
  | report i out =>
      cases ha : s.entries[i]? with
      | none => rw [schedStep_report_oob ha] at hy; exact ⟨y, hy, Or.inl rfl⟩
      | some a =>
          rw [schedStep_report ha] at hy
          by_cases hd : a.entry.status = .Downloading
          · cases out with
            | success =>
                rw [reportStep_success hd] at hy
                rcases mem_updateAt hy with h1 | ⟨b, hb, rfl⟩
                · exact ⟨y, h1, Or.inl rfl⟩
                · exact ⟨b, List.getElem?_mem hb, Or.inr (Or.inr (Or.inl rfl))⟩
            | permanentFail =>
                rw [reportStep_permanent hd] at hy
                rcases mem_updateAt hy with h1 | ⟨b, hb, rfl⟩
                · exact ⟨y, h1, Or.inl rfl⟩
                · exact ⟨b, List.getElem?_mem hb, Or.inr (Or.inr (Or.inr (Or.inl rfl)))⟩
            | cancelled =>
                rw [reportStep_cancelled hd] at hy
                rcases mem_updateAt hy with h1 | ⟨b, hb, rfl⟩
                · exact ⟨y, h1, Or.inl rfl⟩
                · exact ⟨b, List.getElem?_mem hb, Or.inr (Or.inr (Or.inr (Or.inl rfl)))⟩
            | transientFail =>
                by_cases hr : a.retries < cfg.max_retries
                · rw [reportStep_transient_retry hd hr] at hy
                  rcases List.mem_append.mp hy with h1 | h1
                  · exact ⟨y, mem_removeAt h1, Or.inl rfl⟩
                  · have : y = requeued a := by simpa using h1
                    exact ⟨a, List.getElem?_mem ha,
                      Or.inr (Or.inr (Or.inr (Or.inr (Or.inl ⟨this, hr⟩))))⟩
                · rw [reportStep_transient_exhausted hd hr] at hy
                  rcases mem_updateAt hy with h1 | ⟨b, hb, rfl⟩
                  · exact ⟨y, h1, Or.inl rfl⟩
                  · exact ⟨b, List.getElem?_mem hb, Or.inr (Or.inr (Or.inr (Or.inl rfl)))⟩
          · rw [reportStep_not_downloading hd] at hy
            exact ⟨y, hy, Or.inl rfl⟩
  | pauseAll =>
      rw [schedStep] at hy
      obtain ⟨x, hx, rfl⟩ := List.mem_map.mp hy
      exact ⟨x, hx, Or.inr (Or.inr (Or.inr (Or.inr (Or.inr (Or.inl rfl)))))⟩
  | resumeAll =>
      rw [schedStep] at hy
      obtain ⟨x, hx, rfl⟩ := List.mem_map.mp hy
      exact ⟨x, hx, Or.inr (Or.inr (Or.inr (Or.inr (Or.inr (Or.inr rfl)))))⟩

theorem retries_setEntryStatus (x : SchedEntry) (st : DlStatus) :
    (setEntryStatus x st).retries = x.retries := rfl

theorem retries_pauseEntry (x : SchedEntry) : (pauseEntry x).retries = x.retries := by
  rw [pauseEntry]
  cases x.entry.status <;> rfl

theorem retries_resumeEntry (x : SchedEntry) : (resumeEntry x).retries = x.retries := by
  rw [resumeEntry]
  cases x.entry.status <;> rfl

theorem retries_bound_step (cfg : SchedConfig) (s : SchedState) (st : SchedStep)
    (hb : ∀ x ∈ s.entries, x.retries ≤ cfg.max_retries) :
    ∀ y ∈ (schedStep cfg s st).entries, y.retries ≤ cfg.max_retries := by
  intro y hy
  obtain ⟨x, hx, hcase⟩ := mem_schedStep hy
  have hxb := hb x hx
  rcases hcase with rfl | rfl | rfl | rfl | ⟨rfl, hr⟩ | rfl | rfl
  · exact hxb
  · rw [retries_setEntryStatus]; exact hxb
  · rw [retries_setEntryStatus]; exact hxb
  · rw [retries_setEntryStatus]; exact hxb
  · have hrq : (requeued x).retries = x.retries + 1 := rfl
    omega
  · rw [retries_pauseEntry]; exact hxb
  · rw [retries_resumeEntry]; exact hxb

theorem retries_bound_run (cfg : SchedConfig) (steps : List SchedStep) :
    ∀ s : SchedState, (∀ x ∈ s.entries, x.retries ≤ cfg.max_retries) →
      ∀ y ∈ (schedRun cfg s steps).entries, y.retries ≤ cfg.max_retries := by
  induction steps with
  | nil => intro s hb; exact hb
  | cons st steps ih =>
      intro s hb
      exact ih _ (retries_bound_step cfg s st hb)

theorem pauseEntry_of_failed {x : SchedEntry} (hf : x.entry.status = .Failed) :
    pauseEntry x = x := by
  rw [pauseEntry, hf]

theorem resumeEntry_of_failed {x : SchedEntry} (hf : x.entry.status = .Failed) :
    resumeEntry x = x := by
  rw [resumeEntry, hf]

theorem failed_persists_step (cfg : SchedConfig) (s : SchedState) (st : SchedStep)
    {x : SchedEntry} (hx : x ∈ s.entries) (hf : x.entry.status = .Failed) :
    x ∈ (schedStep cfg s st).entries := by
  cases st with
  | dispatch =>
      rw [schedStep]
      by_cases hp : s.paused
      · rw [if_pos hp]; exact hx
      · rw [if_neg hp]
        by_cases hc : countDownloading s < cfg.max_concurrent_downloads
        · rw [if_pos hc]
          cases hfq : firstQueuedIdx s.entries with
          | none => exact hx
          | some i =>
              obtain ⟨a, ha, haq, -⟩ := firstQueuedIdx_spec s.entries i hfq
              refine mem_updateAt_of_ne _ ha hx fun heq => ?_
              rw [heq, haq] at hf
              exact DlStatus.noConfusion hf
        · rw [if_neg hc]; exact hx
  | report i out =>
      cases ha : s.entries[i]? with
      | none => rw [schedStep_report_oob ha]; exact hx
      | some a =>
          rw [schedStep_report ha]
          by_cases hd : a.entry.status = .Downloading
          · have hne : x ≠ a := fun heq => by
              rw [heq, hd] at hf
              exact DlStatus.noConfusion hf
            cases out with
            | success => rw [reportStep_success hd]; exact mem_updateAt_of_ne _ ha hx hne
            | permanentFail => rw [reportStep_permanent hd]; exact mem_updateAt_of_ne _ ha hx hne
            | cancelled => rw [reportStep_cancelled hd]; exact mem_updateAt_of_ne _ ha hx hne
            | transientFail =>
                by_cases hr : a.retries < cfg.max_retries
                · rw [reportStep_transient_retry hd hr]
                  exact List.mem_append.mpr (Or.inl (mem_removeAt_of_ne ha hx hne))
                · rw [reportStep_transient_exhausted hd hr]
                  exact mem_updateAt_of_ne _ ha hx hne
          · rw [reportStep_not_downloading hd]; exact hx
  | pauseAll =>
      rw [schedStep]
      have := List.mem_map_of_mem pauseEntry hx
      rwa [pauseEntry_of_failed hf] at this
  | resumeAll =>
      rw [schedStep]
      have := List.mem_map_of_mem resumeEntry hx
      rwa [resumeEntry_of_failed hf] at this

theorem failed_status_persists (cfg : SchedConfig) (steps : List SchedStep) :
    ∀ (s : SchedState) (x : SchedEntry), x ∈ s.entries → x.entry.status = .Failed →
      x ∈ (schedRun cfg s steps).entries := by
  induction steps with
  | nil => intro s x hx _; exact hx
  | cons st steps ih =>
      intro s x hx hf
      exact ih _ x (failed_persists_step cfg s st hx hf) hf

/-- C3: transient failures are retried at most `max_retries` times — the
retry counter never exceeds `max_retries` in any run, and a transient failure
with the budget exhausted marks the entry `Failed`; a permanent failure marks
the entry `Failed` immediately; and a `Failed` entry persists untouched (in
particular is never requeued) through every further scheduler step. -/
theorem c3_retry_policy (cfg : SchedConfig) :
    (∀ s : SchedState, (∀ x ∈ s.entries, x.retries ≤ cfg.max_retries) →
      ∀ steps : List SchedStep, ∀ y ∈ (schedRun cfg s steps).entries,
        y.retries ≤ cfg.max_retries) ∧
    (∀ (s : SchedState) (i : Nat) (a : SchedEntry), s.entries[i]? = some a →
      a.entry.status = .Downloading → cfg.max_retries ≤ a.retries →
      (schedStep cfg s (.report i .transientFail)).entries[i]? =
        some (setEntryStatus a .Failed)) ∧
    (∀ (s : SchedState) (i : Nat) (a : SchedEntry), s.entries[i]? = some a →
      a.entry.status = .Downloading →
      (schedStep cfg s (.report i .permanentFail)).entries[i]? =
        some (setEntryStatus a .Failed)) ∧
    (∀ (s : SchedState) (x : SchedEntry), x ∈ s.entries → x.entry.status = .Failed →
      ∀ steps : List SchedStep, x ∈ (schedRun cfg s steps).entries) := by
  refine ⟨?_, ?_, ?_, ?_⟩
  · intro s hb steps
    exact retries_bound_run cfg steps s hb
  · intro s i a ha hd hr
    rw [schedStep_report ha, reportStep_transient_exhausted hd (by omega)]
    exact updateAt_getElem?_self _ ha
  · intro s i a ha hd
    rw [schedStep_report ha, reportStep_permanent hd]
    exact updateAt_getElem?_self _ ha
  · intro s x hx hf steps
    exact failed_status_persists cfg steps s x hx hf

/-- Witness for C3 at a concrete configuration, states and runs. -/
theorem c3_retry_policy_witness :
    (⟨⟨"http://a", "a", .Queued, 0, none, none⟩, 1⟩ : SchedEntry).retries ≤ 1 ∧
    (schedStep ⟨1, 1⟩ ⟨[⟨⟨"http://a", "a", .Downloading, 0, none, none⟩, 1⟩], false⟩
        (.report 0 .transientFail)).entries[0]? =
      some (setEntryStatus ⟨⟨"http://a", "a", .Downloading, 0, none, none⟩, 1⟩ .Failed) ∧
    (schedStep ⟨1, 1⟩ ⟨[⟨⟨"http://a", "a", .Downloading, 0, none, none⟩, 0⟩], false⟩
        (.report 0 .permanentFail)).entries[0]? =
      some (setEntryStatus ⟨⟨"http://a", "a", .Downloading, 0, none, none⟩, 0⟩ .Failed) ∧
    (⟨⟨"http://a", "a", .Failed, 0, none, none⟩, 1⟩ : SchedEntry) ∈
      (schedRun ⟨1, 1⟩ ⟨[⟨⟨"http://a", "a", .Failed, 0, none, none⟩, 1⟩], false⟩
        [.dispatch, .report 0 .transientFail, .pauseAll, .resumeAll]).entries :=
  ⟨(c3_retry_policy ⟨1, 1⟩).1 ⟨[⟨newEntry "http://a" "a", 0⟩], false⟩ (by decide)
      [.dispatch, .report 0 .transientFail]
      ⟨⟨"http://a", "a", .Queued, 0, none, none⟩, 1⟩ (by decide),
    (c3_retry_policy ⟨1, 1⟩).2.1 ⟨[⟨⟨"http://a", "a", .Downloading, 0, none, none⟩, 1⟩], false⟩
      0 ⟨⟨"http://a", "a", .Downloading, 0, none, none⟩, 1⟩ (by decide) (by decide) (by decide),
    (c3_retry_policy ⟨1, 1⟩).2.2.1 ⟨[⟨⟨"http://a", "a", .Downloading, 0, none, none⟩, 0⟩], false⟩
      0 ⟨⟨"http://a", "a", .Downloading, 0, none, none⟩, 0⟩ (by decide) (by decide),
    (c3_retry_policy ⟨1, 1⟩).2.2.2 ⟨[⟨⟨"http://a", "a", .Failed, 0, none, none⟩, 1⟩], false⟩
      ⟨⟨"http://a", "a", .Failed, 0, none, none⟩, 1⟩ (by decide) (by decide)
      [.dispatch, .report 0 .transientFail, .pauseAll, .resumeAll]⟩

/-- The demo queue of C8's scenario: two `Queued` entries A then B. -/
def entryA : SchedEntry := ⟨⟨"http://A", "A.mp3", .Queued, 0, none, none⟩, 0⟩

/-- Second demo entry of C8's scenario. -/
def entryB : SchedEntry := ⟨⟨"http://B", "B.mp3", .Queued, 0, none, none⟩, 0⟩

/-- The scenario's start state: `{A: Queued, B: Queued}`, scheduler running. -/
def demoState : SchedState := ⟨[entryA, entryB], false⟩

/-- The scenario's configuration: `max_concurrent_downloads = 1`. -/
def demoCfg : SchedConfig := ⟨1, 0⟩

/-- C8: whenever a slot is free and scheduling is not paused, `dispatch`
transitions exactly the first `Queued` entry in queue order to `Downloading`
(FIFO, not priority-based); and in the scenario `{A: Queued, B: Queued}` with
`max_concurrent_downloads = 1`, A downloads to completion before B starts and
both finish as `Finished` in original order. -/
theorem c8_fifo_scheduling :
    (∀ (cfg : SchedConfig) (s : SchedState) (i : Nat),
      s.paused = false → countDownloading s < cfg.max_concurrent_downloads →
      firstQueuedIdx s.entries = some i →
      schedStep cfg s .dispatch =
        { s with entries := updateAt s.entries i fun x => setEntryStatus x .Downloading } ∧
      ∃ a, s.entries[i]? = some a ∧ a.entry.status = .Queued ∧
        ∀ j a', j < i → s.entries[j]? = some a' → a'.entry.status ≠ .Queued) ∧
    (schedRun demoCfg demoState [.dispatch]).entries.map (fun x => x.entry.status) =
      [.Downloading, .Queued] ∧
    schedStep demoCfg (schedRun demoCfg demoState [.dispatch]) .dispatch =
      schedRun demoCfg demoState [.dispatch] ∧
    (schedRun demoCfg demoState [.dispatch, .report 0 .success]).entries.map
      (fun x => x.entry.status) = [.Finished, .Queued] ∧
    (schedRun demoCfg demoState
        [.dispatch, .report 0 .success, .dispatch, .report 1 .success]).entries.map
      (fun x => (x.entry.url, x.entry.status)) =
      [("http://A", .Finished), ("http://B", .Finished)] := by
  refine ⟨?_, by decide, by decide, by decide, by decide⟩
  intro cfg s i hp hc hf
  refine ⟨?_, firstQueuedIdx_spec s.entries i hf⟩
  rw [schedStep, hp]
  simp only [Bool.false_eq_true, if_false]
  rw [if_pos hc, hf]

/-- Witness for C8's universally quantified dispatch law at a concrete state. -/
theorem c8_fifo_scheduling_witness :
    schedStep demoCfg demoState .dispatch =
      { demoState with
        entries := updateAt demoState.entries 0 fun x => setEntryStatus x .Downloading } :=
  (c8_fifo_scheduling.1 demoCfg demoState 0 (by decide) (by decide) (by decide)).1

/-! ## Transfer Worker: resume via range requests (C4) -/

/-- Modelled from the spec: the HTTP request the Transfer Worker issues —
a plain GET, or a GET with a `Range: bytes=<offset>-` header. -/
inductive HttpRequest where
  | plain
  | withRange (offset : Nat)
  deriving DecidableEq, Repr

/-- Modelled from the spec: what the worker does to the destination file
before streaming — truncate/create it, or keep the partial bytes to extend. -/
inductive FileAction where
  | truncateOrCreate
  | keepForResume
  deriving DecidableEq, Repr

/-- Modelled from the spec: the kind of response the server answers with —
a full `200` body or a `206` partial body honouring the range. -/
inductive RespKind where
  | full200
  | partial206
  deriving DecidableEq, Repr

/-- Modelled from the spec: step 1 of the worker algorithm — resume exactly
when `local_path` exists with size `S > 0` and `S < bytes_total` or
`bytes_total` is unknown. -/
def resumeDecision (existingSize bytes_total : Option Nat) : Bool :=
  match existingSize with
  | none => false
  | some S =>
      if S = 0 then false
      else
        match bytes_total with
        | none => true
        | some T => decide (S < T)

/-- Modelled from the spec: the request issued — with a byte-range starting
at the existing size when resuming, plain otherwise. -/
def buildRequest (existingSize bytes_total : Option Nat) : HttpRequest :=
  match existingSize with
  | some S => if resumeDecision (some S) bytes_total then .withRange S else .plain
  | none => .plain

/-- Modelled from the spec: the destination-file action taken alongside the
request: keep the partial bytes when resuming, truncate or create otherwise. -/
def fileAction (existingSize bytes_total : Option Nat) : FileAction :=
  if resumeDecision existingSize bytes_total then .keepForResume else .truncateOrCreate

/-- Modelled from the spec: step 2 — the byte offset the body is written
from: a full `200` answer to a range request restarts from byte zero,
discarding the prior partial bytes; a `206` answer extends from the offset. -/
def startOffset : HttpRequest → RespKind → Nat
  | .withRange off, .partial206 => off
  | _, _ => 0

/-- C4: the worker issues a range request from offset `S` exactly when the
file exists with size `S > 0` and the total is unknown or `S` is below it
(keeping the partial bytes), issues a plain request and truncates/creates
otherwise, and restarts from byte zero whenever the server answers a range
request with a full `200` response. -/
theorem c4_resume_range_requests :
    (∀ S T : Nat, 0 < S → S < T →
      buildRequest (some S) (some T) = .withRange S ∧
      fileAction (some S) (some T) = .keepForResume) ∧
    (∀ S : Nat, 0 < S →
      buildRequest (some S) none = .withRange S ∧
      fileAction (some S) none = .keepForResume) ∧
    (∀ total : Option Nat,
      buildRequest none total = .plain ∧ fileAction none total = .truncateOrCreate) ∧
    (∀ total : Option Nat,
      buildRequest (some 0) total = .plain ∧
      fileAction (some 0) total = .truncateOrCreate) ∧
    (∀ S T : Nat, T ≤ S →
      buildRequest (some S) (some T) = .plain ∧
      fileAction (some S) (some T) = .truncateOrCreate) ∧
    (∀ off : Nat, startOffset (.withRange off) .full200 = 0) ∧
    (∀ off : Nat, startOffset (.withRange off) .partial206 = off) := by
  refine ⟨?_, ?_, ?_, ?_, ?_, fun _ => rfl, fun _ => rfl⟩
  · intro S T h1 h2
    have hS : ¬ S = 0 := by omega
    constructor <;> simp [buildRequest, fileAction, resumeDecision, hS, h2]
  · intro S h1
    have hS : ¬ S = 0 := by omega
    constructor <;> simp [buildRequest, fileAction, resumeDecision, hS]
  · intro total
    constructor <;> simp [buildRequest, fileAction, resumeDecision]
  · intro total
    constructor <;> simp [buildRequest, fileAction, resumeDecision]
  · intro S T hTS
    have hST : ¬ S < T := by omega
    by_cases hS : S = 0
    · subst hS
      constructor <;> simp [buildRequest, fileAction, resumeDecision]
    · constructor <;> simp [buildRequest, fileAction, resumeDecision, hS, hST]

/-- Witness for C4 at concrete sizes (the spec's 10 MB file interrupted at
4 MB) and offsets. -/
theorem c4_resume_range_requests_witness :
    (buildRequest (some 4000000) (some 10000000) = .withRange 4000000 ∧
      fileAction (some 4000000) (some 10000000) = .keepForResume) ∧
    (buildRequest (some 3) none = .withRange 3 ∧ fileAction (some 3) none = .keepForResume) ∧
    (buildRequest none (some 7) = .plain ∧ fileAction none (some 7) = .truncateOrCreate) ∧
    (buildRequest (some 0) none = .plain ∧ fileAction (some 0) none = .truncateOrCreate) ∧
    (buildRequest (some 7) (some 7) = .plain ∧
      fileAction (some 7) (some 7) = .truncateOrCreate) ∧
    startOffset (.withRange 4000000) .full200 = 0 ∧
    startOffset (.withRange 4000000) .partial206 = 4000000 :=
  ⟨c4_resume_range_requests.1 4000000 10000000 (by omega) (by omega),
    c4_resume_range_requests.2.1 3 (by omega),
    c4_resume_range_requests.2.2.1 (some 7),
    c4_resume_range_requests.2.2.2.1 none,
    c4_resume_range_requests.2.2.2.2.1 7 7 (by omega),
    c4_resume_range_requests.2.2.2.2.2.1 4000000,
    c4_resume_range_requests.2.2.2.2.2.2 4000000⟩

/-! ## Queue Controller: command validation and rollback (C7) -/

/-- Modelled from the spec: the failure modes the Controller surfaces to the
caller. -/
inductive CtrlErr where
  | DuplicateEntry
  | IndexOutOfRange
  | IoError
  deriving DecidableEq, Repr

/-- Modelled from the spec: the Controller's view — the in-memory queue and
the queue contents last durably saved through the Queue Store. -/
structure CtrlState where
  queue : List QueueEntry
  savedQueue : List QueueEntry
  deriving DecidableEq, Repr

/-- Modelled from the spec: a Controller queue-mutation command. -/
inductive CtrlCmd where
  | add (url path : String)
  | del (i : Nat)
  | move (i j : Nat)
  deriving DecidableEq, Repr

/-- Modelled from the spec: whether `path` already belongs to a non-`Deleted`
entry of the queue. -/
def duplicatePath (q : List QueueEntry) (path : String) : Bool :=
  q.any fun e => e.local_path == path && ! isDeleted e

/-- Modelled from the spec: committing a mutation — the new queue is persisted
through the Queue Store; when the persist fails with `IoError` the in-memory
mutation is rolled back, so the state is unchanged. -/
def commit (s : CtrlState) (q' : List QueueEntry) (persistOk : Bool) :
    Option CtrlErr × CtrlState :=
  if persistOk then (none, ⟨q', q'⟩) else (some .IoError, s)

/-- Modelled from the spec: the `move(index, new_index)` command — an
out-of-range index is rejected synchronously with `IndexOutOfRange`, else the
reordered queue is committed. -/
def moveCmd (s : CtrlState) (persistOk : Bool) (i j : Nat) : Option CtrlErr × CtrlState :=
  match s.queue[i]? with
  | some e =>
      if j < s.queue.length then commit s (insertAt (removeAt s.queue i) j e) persistOk
      else (some .IndexOutOfRange, s)
  | none => (some .IndexOutOfRange, s)

theorem moveCmd_at {s : CtrlState} {ok : Bool} {i j : Nat} {e : QueueEntry}
    (he : s.queue[i]? = some e) :
    moveCmd s ok i j =
      if j < s.queue.length then commit s (insertAt (removeAt s.queue i) j e) ok
      else (some .IndexOutOfRange, s) := by
  rw [moveCmd, he]

theorem moveCmd_oob {s : CtrlState} {ok : Bool} {i j : Nat}
    (he : s.queue[i]? = none) :
    moveCmd s ok i j = (some .IndexOutOfRange, s) := by
  rw [moveCmd, he]

/-- Modelled from the spec: one Controller command.  `add` rejects a
duplicate `local_path` synchronously; `delete`/`move` reject an out-of-range
index synchronously; otherwise the mutation is applied and persisted. -/
def runCmd (s : CtrlState) (persistOk : Bool) : CtrlCmd → Option CtrlErr × CtrlState
  | .add url path =>
      if duplicatePath s.queue path then (some .DuplicateEntry, s)
      else commit s (s.queue ++ [newEntry url path]) persistOk
  | .del i =>
      if i < s.queue.length then commit s (removeAt s.queue i) persistOk
      else (some .IndexOutOfRange, s)
  | .move i j => moveCmd s persistOk i j

/-- A whole session of Controller commands, each with its persist outcome. -/
def runCmds (s : CtrlState) : List (Bool × CtrlCmd) → CtrlState
  | [] => s
  | (ok, c) :: rest => runCmds (runCmd s ok c).2 rest

theorem runCmd_sync_step (s : CtrlState) (ok : Bool) (c : CtrlCmd)
    (h : s.queue = s.savedQueue) :
    (runCmd s ok c).2.queue = (runCmd s ok c).2.savedQueue := by
  cases c with
  | add url path =>
      rw [runCmd]
      by_cases hdup : duplicatePath s.queue path
      · rw [if_pos hdup]; exact h
      · rw [if_neg hdup, commit]
        cases ok with
        | true => simp
        | false => simpa using h
  | del i =>
      rw [runCmd]
      by_cases hi : i < s.queue.length
      · rw [if_pos hi, commit]
        cases ok with
        | true => simp
        | false => simpa using h
      · rw [if_neg hi]; exact h
  | move i j =>
      rw [runCmd]
      cases he : s.queue[i]? with
      | none => rw [moveCmd_oob he]; exact h
      | some e =>
          rw [moveCmd_at he]
          by_cases hj : j < s.queue.length
          · rw [if_pos hj, commit]
            cases ok with
            | true => simp
            | false => simpa using h
          · rw [if_neg hj]; exact h

/-- C7: `add` on a `local_path` already held by a non-`Deleted` entry fails
synchronously with `DuplicateEntry` and an unchanged state; `delete`/`move`
with an out-of-range index fail synchronously with `IndexOutOfRange` and an
unchanged state; a command whose persist fails surfaces `IoError` with the
in-memory mutation rolled back; and across any command session the
Controller's in-memory queue always equals the last durably saved queue. -/
theorem c7_controller_errors :
    (∀ (s : CtrlState) (ok : Bool) (url path : String),
      duplicatePath s.queue path = true →
      runCmd s ok (.add url path) = (some .DuplicateEntry, s)) ∧
    (∀ (s : CtrlState) (ok : Bool) (i : Nat), s.queue.length ≤ i →
      runCmd s ok (.del i) = (some .IndexOutOfRange, s)) ∧
    (∀ (s : CtrlState) (ok : Bool) (i j : Nat),
      ¬ (i < s.queue.length ∧ j < s.queue.length) →
      runCmd s ok (.move i j) = (some .IndexOutOfRange, s)) ∧
    (∀ (s : CtrlState) (ok : Bool) (c : CtrlCmd),
      (runCmd s ok c).1 = some .IoError → (runCmd s ok c).2 = s) ∧
    (∀ (s : CtrlState) (cmds : List (Bool × CtrlCmd)), s.queue = s.savedQueue →
      (runCmds s cmds).queue = (runCmds s cmds).savedQueue) := by
  refine ⟨?_, ?_, ?_, ?_, ?_⟩
  · intro s ok url path hdup
    rw [runCmd, if_pos hdup]
  · intro s ok i hi
    rw [runCmd, if_neg (by omega)]
  · intro s ok i j hij
    rw [runCmd]
    cases he : s.queue[i]? with
    | none => exact moveCmd_oob he
    | some e =>
        have hi : i < s.queue.length := (List.getElem?_eq_some_iff.mp he).1
        have hj : ¬ j < s.queue.length := fun hj => hij ⟨hi, hj⟩
        rw [moveCmd_at he, if_neg hj]
  · intro s ok c h
    cases c with
    | add url path =>
        rw [runCmd] at h ⊢
        by_cases hdup : duplicatePath s.queue path
        · rw [if_pos hdup]
        · rw [if_neg hdup] at h ⊢
          rw [commit] at h ⊢
          cases ok with
          | true => simp at h
          | false => simp
    | del i =>
        rw [runCmd] at h ⊢
        by_cases hi : i < s.queue.length
        · rw [if_pos hi] at h ⊢
          rw [commit] at h ⊢
          cases ok with
          | true => simp at h
          | false => simp
        · rw [if_neg hi]
    | move i j =>
        rw [runCmd] at h ⊢
        cases he : s.queue[i]? with
        | none => rw [moveCmd_oob he]
        | some e =>
            rw [moveCmd_at he] at h ⊢
            by_cases hj : j < s.queue.length
            · rw [if_pos hj] at h ⊢
              rw [commit] at h ⊢
              cases ok with
              | true => simp at h
              | false => simp
            · rw [if_neg hj]
  · intro s cmds
    induction cmds generalizing s with
    | nil => intro h; exact h
    | cons p rest ih =>
        intro h
        obtain ⟨ok, c⟩ := p
        exact ih _ (runCmd_sync_step s ok c h)

/-- Witness for C7 at concrete states and commands. -/
theorem c7_controller_errors_witness :
    runCmd ⟨[newEntry "http://a" "a.mp3"], [newEntry "http://a" "a.mp3"]⟩ true
        (.add "http://b" "a.mp3") =
      (some .DuplicateEntry, ⟨[newEntry "http://a" "a.mp3"], [newEntry "http://a" "a.mp3"]⟩) ∧
    runCmd ⟨[], []⟩ true (.del 0) = (some .IndexOutOfRange, ⟨[], []⟩) ∧
    runCmd ⟨[], []⟩ true (.move 0 0) = (some .IndexOutOfRange, ⟨[], []⟩) ∧
    (runCmd ⟨[], []⟩ false (.add "http://b" "b.mp3")).2 = ⟨[], []⟩ ∧
    (runCmds ⟨[], []⟩ [(true, .add "http://b" "b.mp3"), (false, .add "http://c" "c.mp3"),
        (true, .del 0)]).queue =
      (runCmds ⟨[], []⟩ [(true, .add "http://b" "b.mp3"), (false, .add "http://c" "c.mp3"),
        (true, .del 0)]).savedQueue :=
  ⟨c7_controller_errors.1 ⟨[newEntry "http://a" "a.mp3"], [newEntry "http://a" "a.mp3"]⟩
      true "http://b" "a.mp3" (by decide),
    c7_controller_errors.2.1 ⟨[], []⟩ true 0 (by decide),
    c7_controller_errors.2.2.1 ⟨[], []⟩ true 0 0 (by decide),
    c7_controller_errors.2.2.2.1 ⟨[], []⟩ false (.add "http://b" "b.mp3") (by decide),
    c7_controller_errors.2.2.2.2 ⟨[], []⟩
      [(true, .add "http://b" "b.mp3"), (false, .add "http://c" "c.mp3"), (true, .del 0)]
      (by decide)⟩

/-! ## The entry point (`src/podboat.cpp`, C9 and C10) -/

/-- A C++ exception as `main` can observe it: a `newsboat::Exception` (or a
subtype) carrying a message, or an exception of any other type. -/
inductive CppExc where
  | newsboatExc (msg : String)
  | otherExc
  deriving DecidableEq, Repr

/-- Whether one of the calls inside the `try` block returns or throws. -/
inductive CallOutcome where
  | ok
  | throws (e : CppExc)
  deriving DecidableEq, Repr

/-- The environment `main` runs against: whether `c.initialize(argc, argv)`,
the `PbView` construction, and `c.run()` throw, and the value `c.run()`
returns when it does return. -/
structure MainEnv where
  initOutcome : CallOutcome
  viewOutcome : CallOutcome
  runOutcome : CallOutcome
  runValue : Int
  deriving DecidableEq, Repr

/-- One observable side effect of `main`, in program order of
`src/podboat.cpp`. -/
inductive Effect where
  | setupHumanPanic
  | sslSetup
  | setLocaleCtype
  | setLocaleMessages
  | bindTextDomainCall
  | setTextDomain
  | constructController
  | ctrlInit
  | constructView
  | attachView
  | ctrlRun
  | printToStderr (msg : String)
  deriving DecidableEq, Repr

/-- How the process ends: with an exit status, or by an uncaught exception
escaping `main`. -/
inductive MainResult where
  | exits (code : Int)
  | uncaughtExc (e : CppExc)
  deriving DecidableEq, Repr

/-- `EXIT_FAILURE` of the C standard library. -/
def EXIT_FAILURE : Int := 1

/-- The effects `main` performs unconditionally before the `try` block:
panic handler, SSL setup, the two `setlocale` calls, `bindtextdomain`,
`textdomain`, and the `PbController` construction. -/
def mainPrefix : List Effect :=
  [.setupHumanPanic, .sslSetup, .setLocaleCtype, .setLocaleMessages,
    .bindTextDomainCall, .setTextDomain, .constructController]

/-- The `catch (const newsboat::Exception& e)` clause: a `newsboat::Exception`
is formatted to standard error and the process exits with `EXIT_FAILURE`; any
other exception is not caught and escapes `main`. -/
def catchClause (done : List Effect) : CppExc → List Effect × MainResult
  | .newsboatExc m =>
      (done ++ [.printToStderr ("Caught newsboat::Exception with message: " ++ m)],
        .exits EXIT_FAILURE)
  | .otherExc => (done, .uncaughtExc .otherExc)

/-- Embedding of `main` from `src/podboat.cpp`: the fixed pre-`try` sequence,
then `c.initialize(argc, argv)`, the `PbView` construction, `c.set_view(&v)`
and `return c.run()` inside the `try` block, with the `newsboat::Exception`
catch clause around them. -/
def mainModel (env : MainEnv) : List Effect × MainResult :=
  match env.initOutcome with
  | .throws e => catchClause (mainPrefix ++ [.ctrlInit]) e
  | .ok =>
      match env.viewOutcome with
      | .throws e => catchClause (mainPrefix ++ [.ctrlInit, .constructView]) e
      | .ok =>
          match env.runOutcome with
          | .throws e =>
              catchClause
                (mainPrefix ++ [.ctrlInit, .constructView, .attachView, .ctrlRun]) e
          | .ok =>
              (mainPrefix ++ [.ctrlInit, .constructView, .attachView, .ctrlRun],
                .exits env.runValue)

/-- The first exception thrown inside the `try` block, if any. -/
def firstThrown (env : MainEnv) : Option CppExc :=
  match env.initOutcome with
  | .throws e => some e
  | .ok =>
      match env.viewOutcome with
      | .throws e => some e
      | .ok =>
          match env.runOutcome with
          | .throws e => some e
          | .ok => none

/-- C9: when controller initialization, view construction or the run loop
throws a `newsboat::Exception`, `main` catches it, prints the formatted
message to standard error and exits with `EXIT_FAILURE`; an exception of any
other type is not caught and escapes `main` without any stderr message. -/
theorem c9_exception_handling (env : MainEnv) (m : String) :
    (firstThrown env = some (.newsboatExc m) →
      (mainModel env).2 = .exits EXIT_FAILURE ∧
      Effect.printToStderr ("Caught newsboat::Exception with message: " ++ m) ∈
        (mainModel env).1) ∧
    (firstThrown env = some .otherExc →
      (mainModel env).2 = .uncaughtExc .otherExc ∧
      ∀ m' : String, Effect.printToStderr m' ∉ (mainModel env).1) := by
  obtain ⟨io, vo, ro, rv⟩ := env
  constructor
  · intro h
    cases io with
    | throws e =>
        obtain rfl : e = .newsboatExc m := by simpa [firstThrown] using h
        simp [mainModel, catchClause, mainPrefix]
    | ok =>
        cases vo with
        | throws e =>
            obtain rfl : e = .newsboatExc m := by simpa [firstThrown] using h
            simp [mainModel, catchClause, mainPrefix]
        | ok =>
            cases ro with
            | throws e =>
                obtain rfl : e = .newsboatExc m := by simpa [firstThrown] using h
                simp [mainModel, catchClause, mainPrefix]
            | ok => simp [firstThrown] at h
  · intro h
    cases io with
    | throws e =>
        obtain rfl : e = .otherExc := by simpa [firstThrown] using h
        simp [mainModel, catchClause, mainPrefix]
    | ok =>
        cases vo with
        | throws e =>
            obtain rfl : e = .otherExc := by simpa [firstThrown] using h
            simp [mainModel, catchClause, mainPrefix]
        | ok =>
            cases ro with
            | throws e =>
                obtain rfl : e = .otherExc := by simpa [firstThrown] using h
                simp [mainModel, catchClause, mainPrefix]
            | ok => simp [firstThrown] at h

/-- Witness for C9 at concrete environments. -/
theorem c9_exception_handling_witness :
    ((mainModel ⟨.throws (.newsboatExc "boom"), .ok, .ok, 0⟩).2 = .exits EXIT_FAILURE ∧
      Effect.printToStderr ("Caught newsboat::Exception with message: " ++ "boom") ∈
        (mainModel ⟨.throws (.newsboatExc "boom"), .ok, .ok, 0⟩).1) ∧
    ((mainModel ⟨.ok, .ok, .throws .otherExc, 0⟩).2 = .uncaughtExc .otherExc ∧
      Effect.printToStderr "x" ∉ (mainModel ⟨.ok, .ok, .throws .otherExc, 0⟩).1) :=
  ⟨(c9_exception_handling ⟨.throws (.newsboatExc "boom"), .ok, .ok, 0⟩ "boom").1 (by decide),
    ((c9_exception_handling ⟨.ok, .ok, .throws .otherExc, 0⟩ "boom").2 (by decide)).1,
    ((c9_exception_handling ⟨.ok, .ok, .throws .otherExc, 0⟩ "boom").2 (by decide)).2 "x"⟩

/-- C10: in every invocation the panic handler and SSL setup precede the
controller construction, locale and text-domain setup precede controller
initialization (the first eight effects are fixed, in order); whenever
`c.run()` is reached, the view was constructed and attached via `set_view`
right before it; and when nothing throws, the process exit status is exactly
the value `c.run()` returned. -/
theorem c10_main_sequence (env : MainEnv) :
    (mainModel env).1.take 8 = mainPrefix ++ [.ctrlInit] ∧
    (Effect.ctrlRun ∈ (mainModel env).1 →
      (mainModel env).1.take 11 =
        mainPrefix ++ [.ctrlInit, .constructView, .attachView, .ctrlRun]) ∧
    (firstThrown env = none →
      mainModel env =
        (mainPrefix ++ [.ctrlInit, .constructView, .attachView, .ctrlRun],
          .exits env.runValue)) := by
  obtain ⟨io, vo, ro, rv⟩ := env
  refine ⟨?_, ?_, ?_⟩
  · cases io with
    | throws e => cases e <;> simp [mainModel, catchClause, mainPrefix]
    | ok =>
        cases vo with
        | throws e => cases e <;> simp [mainModel, catchClause, mainPrefix]
        | ok =>
            cases ro with
            | throws e => cases e <;> simp [mainModel, catchClause, mainPrefix]
            | ok => simp [mainModel, mainPrefix]
  · intro hrun
    cases io with
    | throws e =>
        exfalso
        cases e <;> simp [mainModel, catchClause, mainPrefix] at hrun
    | ok =>
        cases vo with
        | throws e =>
            exfalso
            cases e <;> simp [mainModel, catchClause, mainPrefix] at hrun
        | ok =>
            cases ro with
            | throws e => cases e <;> simp [mainModel, catchClause, mainPrefix]
            | ok => simp [mainModel, mainPrefix]
  · intro h
    cases io with
    | throws e => simp [firstThrown] at h
    | ok =>
        cases vo with
        | throws e => simp [firstThrown] at h
        | ok =>
            cases ro with
            | throws e => simp [firstThrown] at h
            | ok => simp [mainModel]

/-- Witness for C10 at a concrete environment. -/
theorem c10_main_sequence_witness :
    (mainModel ⟨.ok, .ok, .ok, 42⟩).1.take 8 = mainPrefix ++ [.ctrlInit] ∧
    (mainModel ⟨.ok, .ok, .ok, 42⟩).1.take 11 =
      mainPrefix ++ [.ctrlInit, .constructView, .attachView, .ctrlRun] ∧
    mainModel ⟨.ok, .ok, .ok, 42⟩ =
      (mainPrefix ++ [.ctrlInit, .constructView, .attachView, .ctrlRun], .exits 42) :=
  ⟨(c10_main_sequence ⟨.ok, .ok, .ok, 42⟩).1,
    (c10_main_sequence ⟨.ok, .ok, .ok, 42⟩).2.1 (by decide),
    (c10_main_sequence ⟨.ok, .ok, .ok, 42⟩).2.2 (by decide)⟩

end Podboat
